import Mathlib

/-!
Shallow embedding of `kt::fixed_vector<T, N>` (src/fixed_vector.hpp).

A container state is the list of live elements (indices `0 .. m_size-1` of the
byte-array storage); `m_size` is the list's length and the capacity `N` is an
explicit parameter.  Contract violations (the `assert`s in the source) are
modelled by `Option`: `none` means the precondition was violated before any
mutation.  `dflt` stands for the value produced by `T{}` (value-initialisation),
which `emplace` uses for its temporary.
-/

namespace Kt

variable {α : Type}

/-- Embeds `emplace_back` (fixed_vector.hpp:292-299): `assert(has_space())`,
construct at slot `m_size`, increment `m_size`.  The returned reference is to
the new last element. -/
def emplace_back (N : Nat) (l : List α) (v : α) : Option (List α) :=
  if l.length < N then some (l ++ [v]) else none

/-- Embeds `pop_back` (fixed_vector.hpp:300-308): `assert(!empty())`, destroy
the last live slot, decrement `m_size`. -/
def pop_back (l : List α) : Option (List α) :=
  if l.isEmpty then none else some l.dropLast

/-- Embeds the loop of `emplace` (fixed_vector.hpp:271):
`for (; idx < m_size; ++idx) swap(temp, at(idx));` acting on the suffix of the
live sequence starting at `pos`.  Returns the final value of `temp` and the
rewritten suffix. -/
def swapLoop (temp : α) : List α → α × List α
  | [] => (temp, [])
  | a :: rest =>
    let p := swapLoop a rest
    (p.1, temp :: p.2)

/-- Embeds `emplace(pos, args...)` (fixed_vector.hpp:260-275): assert space;
if `pos == end()` delegate to `emplace_back` and return an iterator to index
`m_size - 1`; otherwise run the swap loop from `pos`, `emplace_back` the final
temporary, overwrite slot `pos` with the new value, and return an iterator to
index `pos`.  The result carries the new sequence and the returned index. -/
def emplace (N : Nat) (dflt : α) (l : List α) (p : Nat) (v : α) :
    Option (List α × Nat) :=
  if l.length < N then
    if p = l.length then
      some (l ++ [v], l.length)
    else
      let sw := swapLoop dflt (l.drop p)
      some (((l.take p ++ sw.2) ++ [sw.1]).set p v, p)
  else none

/-- Embeds the loop of single-element `erase` (fixed_vector.hpp:278):
`for (idx = pos; idx < m_size - 1; ++idx) at(idx) = move(at(idx + 1));`
acting on the suffix starting at `pos`: every slot takes the value of its
right neighbour, the last slot keeps its (moved-from) value. -/
def slideLeft : List α → List α
  | [] => []
  | [a] => [a]
  | _ :: b :: rest => b :: slideLeft (b :: rest)

/-- Embeds `erase(pos)` (fixed_vector.hpp:276-281): shift the suffix after
`pos` one slot left, `pop_back`, return an iterator to index `pos`. -/
def erase (l : List α) (p : Nat) : Option (List α × Nat) := do
  let l2 ← pop_back (l.take p ++ slideLeft (l.drop p))
  some (l2, p)

/-- Embeds the loop of `insert(pos, first, last)` (fixed_vector.hpp:253):
`for (; first != last; ++first) pos = emplace(pos, *first);` — note the
insertion point for the next element is the iterator `emplace` returned,
which designates the element just inserted. -/
def insertRangeLoop (N : Nat) (dflt : α) : List α → Nat → List α → Option (List α × Nat)
  | l, pos, [] => some (l, pos)
  | l, pos, x :: xs => do
    let r ← emplace N dflt l pos x
    insertRangeLoop N dflt r.1 r.2 xs

/-- Embeds `insert(pos, first, last)` (fixed_vector.hpp:248-255): return `pos`
unchanged on an empty range, else run the emplace loop and return an iterator
to the saved original index `ret`.  The initializer-list overload
(fixed_vector.hpp:256-259) forwards here. -/
def insertRange (N : Nat) (dflt : α) (l : List α) (p : Nat) (xs : List α) :
    Option (List α × Nat) :=
  if xs.length = 0 then some (l, p)
  else (insertRangeLoop N dflt l p xs).map (fun r => (r.1, p))

/-- Embeds the loop of `insert(pos, count, value)` (fixed_vector.hpp:245):
`for (; count > 0; --count) pos = emplace(pos, t);`. -/
def insertCountLoop (N : Nat) (dflt : α) : List α → Nat → Nat → α → Option (List α × Nat)
  | l, pos, 0, _ => some (l, pos)
  | l, pos, k + 1, v => do
    let r ← emplace N dflt l pos v
    insertCountLoop N dflt r.1 r.2 k v

/-- Embeds `insert(pos, count, value)` (fixed_vector.hpp:241-247). -/
def insertCount (N : Nat) (dflt : α) (l : List α) (p : Nat) (k : Nat) (v : α) :
    Option (List α × Nat) :=
  if k = 0 then some (l, p)
  else (insertCountLoop N dflt l p k v).map (fun r => (r.1, p))

/-- Embeds the first loop of range `erase` (fixed_vector.hpp:287):
`while (last.m_index < m_size) at(first.m_index++) = move(at(last.m_index++));`
Returns the rewritten sequence together with the final value of
`first.m_index`. -/
def copyLoop (l : List α) (f lst : Nat) : List α × Nat :=
  if h : lst < l.length then
    copyLoop (l.set f (l.get ⟨lst, h⟩)) (f + 1) (lst + 1)
  else (l, f)
termination_by l.length - lst
decreasing_by simp only [List.length_set]; omega

/-- Embeds `erase(first, last)` (fixed_vector.hpp:282-291): empty range is a
no-op returning `last`; otherwise the copy loop moves the tail into place and
`pop_back` runs until `m_size == first.m_index`; returns an iterator to the
saved original `first_idx`. -/
def eraseRange (l : List α) (f lst : Nat) : List α × Nat :=
  if lst - f = 0 then (l, lst)
  else
    let r := copyLoop l f lst
    (r.1.take r.2, f)

/-- Embeds the non-trivial branch of `clone` (fixed_vector.hpp:315-331): every
element of the source is appended to this container via `push_back` (the
trivially-copyable `memcpy` branch has the same observable effect).  `dst` is
the state of this container when `clone` starts. -/
def clone (N : Nat) (dst src : List α) : Option (List α) :=
  src.foldlM (fun acc t => emplace_back N acc t) dst

/-- Embeds the move constructor (fixed_vector.hpp:197-201): a fresh (empty)
container clones the source, then the source is cleared.  Returns the pair
(new container, source after the move). -/
def moveConstruct (N : Nat) (src : List α) : Option (List α × List α) := do
  let dst ← clone N [] src
  some (dst, [])

/-- Embeds `operator=(fixed_vector&&)` (fixed_vector.hpp:206-214): when the
source and the target are the same instance (`&rhs == this`, the `aliased`
flag) nothing happens; otherwise the target is cleared, clones the source and
the source is cleared.  Returns (target, source) after the call. -/
def move_assign (N : Nat) (aliased : Bool) (dst src : List α) :
    Option (List α × List α) :=
  if aliased then some (dst, src)
  else do
    let d ← clone N [] src
    some (d, [])

/-- Embeds `operator=(fixed_vector const&)` (fixed_vector.hpp:215-222): when
the source and the target are the same instance nothing happens; otherwise the
target is cleared and clones the source, which is left unchanged. -/
def copy_assign (N : Nat) (aliased : Bool) (dst src : List α) :
    Option (List α × List α) :=
  if aliased then some (dst, src)
  else do
    let d ← clone N [] src
    some (d, src)

/-- Embeds `resize(count, t)` (fixed_vector.hpp:309-313): `pop_back` while
`m_size > count` (keeping the first `count` elements), then `push_back(t)`
while `count > m_size` (each push checks capacity). -/
def resize (N : Nat) (l : List α) (n : Nat) (v : α) : Option (List α) :=
  (List.replicate (n - (l.take n).length) v).foldlM
    (fun acc t => emplace_back N acc t) (l.take n)

/-- Embeds `capacity()` (fixed_vector.hpp:74): `return N`, independent of the
container's contents. -/
def capacity (N : Nat) (_l : List α) : Nat := N

/-- Models the storage identity and index of `iter_t`
(fixed_vector.hpp:120-180): `m_storage` identifies which container's storage
the iterator points into, `m_index` is the position. -/
structure Iter where
  m_storage : Nat
  m_index : Nat
deriving DecidableEq

/-- Embeds `operator==` on iterators (fixed_vector.hpp:154): storage and index
must both agree. -/
def iterEq (a b : Iter) : Bool :=
  decide (a.m_storage = b.m_storage) && decide (a.m_index = b.m_index)

/-- Embeds `operator<` on iterators (fixed_vector.hpp:156): indices only. -/
def iterLt (a b : Iter) : Bool := decide (a.m_index < b.m_index)

/-- Embeds `operator>` on iterators (fixed_vector.hpp:157): indices only. -/
def iterGt (a b : Iter) : Bool := decide (b.m_index < a.m_index)

/-- Embeds `operator<=` on iterators (fixed_vector.hpp:158): indices only. -/
def iterLe (a b : Iter) : Bool := decide (a.m_index ≤ b.m_index)

/-- Embeds `operator>=` on iterators (fixed_vector.hpp:159): indices only. -/
def iterGe (a b : Iter) : Bool := decide (b.m_index ≤ a.m_index)

/-- Enumerates the public mutating operations of `fixed_vector`, for the
reachable-state invariant. -/
inductive Op (α : Type) where
  | pushBackOp (v : α)
  | popBackOp
  | emplaceOp (p : Nat) (v : α)
  | insertCountOp (p k : Nat) (v : α)
  | insertRangeOp (p : Nat) (xs : List α)
  | eraseOp (p : Nat)
  | eraseRangeOp (f lst : Nat)
  | clearOp
  | resizeOp (n : Nat) (v : α)

/-- Applies one public operation, gated by its documented precondition (a
violated precondition yields `none`): positions must be valid iterators into
the container, `erase(pos)` needs a dereferenceable `pos`. -/
def apply (N : Nat) (dflt : α) (l : List α) : Op α → Option (List α)
  | .pushBackOp v => emplace_back N l v
  | .popBackOp => pop_back l
  | .emplaceOp p v =>
    if p ≤ l.length then (emplace N dflt l p v).map Prod.fst else none
  | .insertCountOp p k v =>
    if p ≤ l.length then (insertCount N dflt l p k v).map Prod.fst else none
  | .insertRangeOp p xs =>
    if p ≤ l.length then (insertRange N dflt l p xs).map Prod.fst else none
  | .eraseOp p => if p < l.length then (erase l p).map Prod.fst else none
  | .eraseRangeOp f lst =>
    if f ≤ lst ∧ lst ≤ l.length then some (eraseRange l f lst).1 else none
  | .clearOp => some []
  | .resizeOp n v => resize N l n v

/-- Runs a sequence of public operations from a starting state. -/
def run (N : Nat) (dflt : α) (ops : List (Op α)) (l : List α) : Option (List α) :=
  ops.foldlM (apply N dflt) l

example : insertRange 4 0 ([] : List Int) 0 [1, 2] = some ([2, 1], 0) := by decide
example : insertRange 6 0 [10, 20] 1 [1, 2, 3] = some ([10, 3, 2, 1, 20], 1) := by decide
example : insertCount 6 0 [10, 20] 1 3 7 = some ([10, 7, 7, 7, 20], 1) := by decide
example : eraseRange [1, 2, 3, 4] 1 3 = ([1, 4], 1) := by simp [eraseRange, copyLoop, List.get]
example : eraseRange [1, 2, 3, 4] 2 2 = ([1, 2, 3, 4], 2) := by decide
example : eraseRange [1, 2, 3, 4] 0 4 = ([], 0) := by simp [eraseRange, copyLoop, List.get]

example : emplace 4 0 [10, 20, 30] 1 7 = some ([10, 7, 20, 30], 1) := by decide
example : emplace 4 0 [10, 20, 30] 3 7 = some ([10, 20, 30, 7], 3) := by decide
example : emplace 3 0 [10, 20, 30] 1 7 = none := by decide
example : erase [10, 7, 20, 30] 1 = some ([10, 20, 30], 1) := by decide
example : erase [10, 20, 30] 2 = some ([10, 20], 2) := by decide
example : (erase ([] : List Int) 0) = none := by decide

theorem swapLoop_snd_length (d : α) (l : List α) :
    (swapLoop d l).2.length = l.length := by
  induction l generalizing d with
  | nil => rfl
  | cons a rest ih => simp [swapLoop, ih a]

theorem swapLoop_append (d : α) (l : List α) :
    (swapLoop d l).2 ++ [(swapLoop d l).1] = d :: l := by
  induction l generalizing d with
  | nil => rfl
  | cons a rest ih =>
    simp only [swapLoop, List.cons_append, List.cons.injEq, true_and]
    exact ih a

theorem emplace_eq (N : Nat) (dflt : α) (l : List α) (p : Nat) (v : α)
    (hN : l.length < N) (hp : p ≤ l.length) :
    emplace N dflt l p v = some (l.take p ++ v :: l.drop p, p) := by
  unfold emplace
  rw [if_pos hN]
  by_cases hpe : p = l.length
  · subst hpe
    simp
  · rw [if_neg hpe]
    have h1 : (l.take p ++ (swapLoop dflt (l.drop p)).2) ++ [(swapLoop dflt (l.drop p)).1]
        = l.take p ++ dflt :: l.drop p := by
      rw [List.append_assoc, swapLoop_append]
    have hlen : (l.take p).length = p := by
      simp [Nat.min_eq_left hp]
    simp only [h1]
    rw [List.set_append, hlen]
    simp

theorem slideLeft_eq (a : α) (rest : List α) :
    slideLeft (a :: rest) = rest ++ [rest.getLastD a] := by
  induction rest generalizing a with
  | nil => rfl
  | cons b rs ih =>
    rw [show slideLeft (a :: b :: rs) = b :: slideLeft (b :: rs) from rfl, ih b,
      List.getLastD_cons]
    rfl

theorem erase_eq (l : List α) (p : Nat) (hp : p < l.length) :
    erase l p = some (l.take p ++ l.drop (p + 1), p) := by
  unfold erase pop_back
  rw [List.drop_eq_getElem_cons hp, slideLeft_eq,
    show l.take p ++ (l.drop (p + 1) ++ [(l.drop (p + 1)).getLastD l[p]])
      = (l.take p ++ l.drop (p + 1)) ++ [(l.drop (p + 1)).getLastD l[p]] from
      (List.append_assoc _ _ _).symm]
  simp

theorem copyLoop_spec (k : Nat) (l : List α) (f lst : Nat)
    (hk : l.length - lst = k) (hf : f ≤ lst) :
    (copyLoop l f lst).2 = f + (l.length - lst) ∧
    (copyLoop l f lst).1.length = l.length ∧
    (copyLoop l f lst).1.take (f + (l.length - lst)) = l.take f ++ l.drop lst := by
  induction k generalizing l f lst with
  | zero =>
    have hge : l.length ≤ lst := by omega
    rw [copyLoop, dif_neg (by omega)]
    refine ⟨by omega, rfl, ?_⟩
    rw [List.drop_eq_nil_of_le hge, List.append_nil]
    congr 1
    omega
  | succ k ih =>
    have hlt : lst < l.length := by omega
    rw [copyLoop, dif_pos hlt]
    have hkk : (l.set f (l.get ⟨lst, hlt⟩)).length - (lst + 1) = k := by
      simp [List.length_set]; omega
    obtain ⟨ih1, ih2, ih3⟩ := ih (l.set f (l.get ⟨lst, hlt⟩)) (f + 1) (lst + 1) hkk
      (by omega)
    rw [List.length_set] at ih1 ih2 ih3
    have harith : f + 1 + (l.length - (lst + 1)) = f + (l.length - lst) := by omega
    rw [harith] at ih1 ih3
    refine ⟨ih1, by rw [ih2], ?_⟩
    rw [ih3]
    have hfl : f < l.length := by omega
    have hflen : (l.take f).length = f := by simp [Nat.min_eq_left (by omega : f ≤ l.length)]
    have hset : l.set f (l.get ⟨lst, hlt⟩) = l.take f ++ l.get ⟨lst, hlt⟩ :: l.drop (f + 1) := by
      exact List.set_eq_take_cons_drop _ hfl
    rw [hset]
    have htake : (l.take f ++ l.get ⟨lst, hlt⟩ :: l.drop (f + 1)).take (f + 1)
        = l.take f ++ [l.get ⟨lst, hlt⟩] := by
      rw [show f + 1 = (l.take f).length + 1 by rw [hflen], List.take_append]
      simp
    have hdrop : (l.take f ++ l.get ⟨lst, hlt⟩ :: l.drop (f + 1)).drop (lst + 1)
        = l.drop (lst + 1) := by
      rw [List.drop_append_eq_append_drop, hflen,
        List.drop_eq_nil_of_le (by rw [hflen]; omega), List.nil_append]
      have h2 : lst + 1 - f = (lst - f) + 1 := by omega
      rw [h2]
      simp only [List.drop_succ_cons]
      rw [List.drop_drop]
      congr 1
      omega
    rw [htake, hdrop, List.append_assoc]
    rw [List.drop_eq_getElem_cons hlt]
    simp

theorem eraseRange_eq (l : List α) (f lst : Nat) (hf : f ≤ lst)
    (_hl : lst ≤ l.length) :
    eraseRange l f lst = (l.take f ++ l.drop lst, f) := by
  unfold eraseRange
  by_cases h0 : lst - f = 0
  · have hfe : lst = f := by omega
    subst hfe
    rw [if_pos (show lst - lst = 0 by omega)]
    simp
  · rw [if_neg h0]
    obtain ⟨h1, _h2, h3⟩ := copyLoop_spec (l.length - lst) l f lst rfl hf
    simp only
    rw [h1, h3]

theorem clone_eq (N : Nat) (src : List α) :
    ∀ dst : List α, dst.length + src.length ≤ N → clone N dst src = some (dst ++ src) := by
  induction src with
  | nil => intro dst _; simp [clone]
  | cons x xs ih =>
    intro dst h
    have hlt : dst.length < N := by simp at h; omega
    unfold clone at ih ⊢
    rw [List.foldlM_cons]
    rw [show emplace_back N dst x = some (dst ++ [x]) from by
      unfold emplace_back; rw [if_pos hlt]]
    rw [show ((some (dst ++ [x]) >>= fun init => List.foldlM (fun acc t => emplace_back N acc t) init xs))
        = List.foldlM (fun acc t => emplace_back N acc t) (dst ++ [x]) xs from rfl]
    rw [ih (dst ++ [x]) (by simp at h ⊢; omega)]
    simp

theorem clone_some_length (N : Nat) (src : List α) :
    ∀ dst r : List α, clone N dst src = some r → dst.length ≤ N → r.length ≤ N := by
  induction src with
  | nil =>
    intro dst r h hd
    unfold clone at h
    simp at h
    subst h
    exact hd
  | cons x xs ih =>
    intro dst r h hd
    unfold clone at h ih
    rw [List.foldlM_cons] at h
    by_cases hlt : dst.length < N
    · rw [show emplace_back N dst x = some (dst ++ [x]) from by
        unfold emplace_back; rw [if_pos hlt]] at h
      exact ih (dst ++ [x]) r h (by simp; omega)
    · rw [show emplace_back N dst x = none from by
        unfold emplace_back; rw [if_neg hlt]] at h
      simp at h

theorem emplace_some_length (N : Nat) (dflt : α) (l : List α) (p : Nat) (v : α)
    (r : List α × Nat) (h : emplace N dflt l p v = some r) :
    r.1.length = l.length + 1 ∧ l.length < N := by
  unfold emplace at h
  by_cases hN : l.length < N
  · rw [if_pos hN] at h
    refine ⟨?_, hN⟩
    by_cases hpe : p = l.length
    · rw [if_pos hpe] at h
      obtain ⟨rfl⟩ := Option.some_injective _ h
      simp
    · rw [if_neg hpe] at h
      obtain ⟨rfl⟩ := Option.some_injective _ h
      simp only [List.length_set, List.length_append, List.length_take,
        swapLoop_snd_length, List.length_drop, List.length_cons,
        List.length_nil]
      omega
  · rw [if_neg hN] at h
    exact absurd h (by simp)

theorem insertRangeLoop_length (N : Nat) (dflt : α) (xs : List α) :
    ∀ (l : List α) (pos : Nat) (r : List α × Nat),
      insertRangeLoop N dflt l pos xs = some r → l.length ≤ N → r.1.length ≤ N := by
  induction xs with
  | nil =>
    intro l pos r h hl
    unfold insertRangeLoop at h
    obtain ⟨rfl⟩ := Option.some_injective _ h
    exact hl
  | cons x xs ih =>
    intro l pos r h hl
    unfold insertRangeLoop at h
    cases he : emplace N dflt l pos x with
    | none => rw [he] at h; exact absurd h (by simp)
    | some r1 =>
      rw [he] at h
      simp only [Option.bind_eq_bind, Option.some_bind] at h
      obtain ⟨h1, h2⟩ := emplace_some_length N dflt l pos x r1 he
      exact ih r1.1 r1.2 r h (by omega)

theorem insertCountLoop_length (N : Nat) (dflt : α) (k : Nat) :
    ∀ (l : List α) (pos : Nat) (v : α) (r : List α × Nat),
      insertCountLoop N dflt l pos k v = some r → l.length ≤ N → r.1.length ≤ N := by
  induction k with
  | zero =>
    intro l pos v r h hl
    unfold insertCountLoop at h
    obtain ⟨rfl⟩ := Option.some_injective _ h
    exact hl
  | succ k ih =>
    intro l pos v r h hl
    unfold insertCountLoop at h
    cases he : emplace N dflt l pos v with
    | none => rw [he] at h; exact absurd h (by simp)
    | some r1 =>
      rw [he] at h
      simp only [Option.bind_eq_bind, Option.some_bind] at h
      obtain ⟨h1, h2⟩ := emplace_some_length N dflt l pos v r1 he
      exact ih r1.1 r1.2 v r h (by omega)

theorem resize_some_length (N : Nat) (l : List α) (n : Nat) (v : α) (r : List α)
    (h : resize N l n v = some r) (hl : l.length ≤ N) : r.length ≤ N := by
  unfold resize at h
  exact clone_some_length N _ (l.take n) r h (by simp; omega)

theorem apply_some_length (N : Nat) (dflt : α) (l : List α) (op : Op α)
    (l2 : List α) (h : apply N dflt l op = some l2) (hl : l.length ≤ N) :
    l2.length ≤ N := by
  cases op with
  | pushBackOp v =>
    simp only [apply, emplace_back] at h
    by_cases hlt : l.length < N
    · rw [if_pos hlt] at h
      obtain ⟨rfl⟩ := Option.some_injective _ h
      simp
      omega
    · rw [if_neg hlt] at h
      exact absurd h (by simp)
  | popBackOp =>
    simp only [apply, pop_back] at h
    by_cases he : l.isEmpty
    · rw [if_pos he] at h
      exact absurd h (by simp)
    · rw [if_neg he] at h
      obtain ⟨rfl⟩ := Option.some_injective _ h
      simp only [List.length_dropLast]
      omega
  | emplaceOp p v =>
    simp only [apply] at h
    by_cases hp : p ≤ l.length
    · rw [if_pos hp] at h
      cases he : emplace N dflt l p v with
      | none => rw [he] at h; exact absurd h (by simp)
      | some r =>
        rw [he] at h
        simp at h
        subst h
        obtain ⟨h1, h2⟩ := emplace_some_length N dflt l p v r he
        omega
    · rw [if_neg hp] at h
      exact absurd h (by simp)
  | insertCountOp p k v =>
    simp only [apply, insertCount] at h
    by_cases hp : p ≤ l.length
    · rw [if_pos hp] at h
      by_cases hk : k = 0
      · rw [if_pos hk] at h
        simp at h
        subst h
        omega
      · rw [if_neg hk] at h
        cases he : insertCountLoop N dflt l p k v with
        | none => rw [he] at h; exact absurd h (by simp)
        | some r =>
          rw [he] at h
          simp at h
          subst h
          have := insertCountLoop_length N dflt k l p v r he hl
          omega
    · rw [if_neg hp] at h
      exact absurd h (by simp)
  | insertRangeOp p xs =>
    simp only [apply, insertRange] at h
    by_cases hp : p ≤ l.length
    · rw [if_pos hp] at h
      by_cases hk : xs.length = 0
      · rw [if_pos hk] at h
        simp at h
        subst h
        omega
      · rw [if_neg hk] at h
        cases he : insertRangeLoop N dflt l p xs with
        | none => rw [he] at h; exact absurd h (by simp)
        | some r =>
          rw [he] at h
          simp at h
          subst h
          have := insertRangeLoop_length N dflt xs l p r he hl
          omega
    · rw [if_neg hp] at h
      exact absurd h (by simp)
  | eraseOp p =>
    simp only [apply] at h
    by_cases hp : p < l.length
    · rw [if_pos hp, erase_eq l p hp] at h
      simp at h
      subst h
      simp
      omega
    · rw [if_neg hp] at h
      exact absurd h (by simp)
  | eraseRangeOp f lst =>
    simp only [apply] at h
    by_cases hp : f ≤ lst ∧ lst ≤ l.length
    · rw [if_pos hp, eraseRange_eq l f lst hp.1 hp.2] at h
      obtain ⟨rfl⟩ := Option.some_injective _ h
      simp
      omega
    · rw [if_neg hp] at h
      exact absurd h (by simp)
  | clearOp =>
    simp only [apply] at h
    obtain ⟨rfl⟩ := Option.some_injective _ h
    simp
  | resizeOp n v =>
    simp only [apply] at h
    exact resize_some_length N l n v l2 h hl

theorem run_some_length (N : Nat) (dflt : α) (ops : List (Op α)) :
    ∀ l l2 : List α, run N dflt ops l = some l2 → l.length ≤ N →
      l2.length ≤ N := by
  induction ops with
  | nil =>
    intro l l2 h hl
    unfold run at h
    simp at h
    subst h
    exact hl
  | cons op ops ih =>
    intro l l2 h hl
    unfold run at h ih
    rw [List.foldlM_cons] at h
    cases ha : apply N dflt l op with
    | none => rw [ha] at h; exact absurd h (by simp)
    | some l1 =>
      rw [ha] at h
      simp only [Option.bind_eq_bind, Option.some_bind] at h
      exact ih l1 l2 h (apply_some_length N dflt l op l1 ha hl)

theorem take_len_left (l : List α) (p : Nat) (hp : p ≤ l.length) (B : List α) :
    (l.take p ++ B).take p = l.take p :=
  List.take_left' (by simp [Nat.min_eq_left hp])

theorem drop_len_left (l : List α) (p : Nat) (hp : p ≤ l.length) (B : List α) :
    (l.take p ++ B).drop p = B :=
  List.drop_left' (by simp [Nat.min_eq_left hp])

theorem insertRangeLoop_reverses (N : Nat) (dflt : α) (xs : List α) :
    ∀ (l : List α) (p : Nat), p ≤ l.length → l.length + xs.length ≤ N →
      insertRangeLoop N dflt l p xs
        = some (l.take p ++ (xs.reverse ++ l.drop p), p) := by
  induction xs with
  | nil =>
    intro l p hp _
    unfold insertRangeLoop
    simp
  | cons x xs ih =>
    intro l p hp hN
    unfold insertRangeLoop
    rw [emplace_eq N dflt l p x (by simp at hN; omega) hp]
    simp only [Option.bind_eq_bind, Option.some_bind]
    rw [ih (l.take p ++ x :: l.drop p) p
      (by simp; omega) (by simp at hN ⊢; omega)]
    rw [take_len_left l p hp, drop_len_left l p hp]
    simp

theorem insertRange_reverses (N : Nat) (dflt : α) (l : List α) (p : Nat)
    (xs : List α) (hp : p ≤ l.length) (hN : l.length + xs.length ≤ N)
    (hxs : xs ≠ []) :
    insertRange N dflt l p xs = some (l.take p ++ (xs.reverse ++ l.drop p), p) := by
  unfold insertRange
  rw [if_neg (by simpa using hxs), insertRangeLoop_reverses N dflt xs l p hp hN]
  rfl

/-- Claim C1 is refuted by the code: `insert(pos, first, last)` feeds the
iterator returned by `emplace` — which designates the element just inserted —
back in as the insertion point for the next element, so the inserted sequence
ends up reversed.  Concretely, inserting `[1, 2]` into an empty
`fixed_vector<int, 4>` produces the sequence `[2, 1]`, not `[1, 2]` promised
by the specification (and by the `std::vector` API the header documentation
defers to). -/
theorem claim_C1_insert_range_reversed :
    insertRange 4 0 ([] : List Int) 0 [1, 2] = some ([2, 1], 0) ∧
    insertRange 4 0 ([] : List Int) 0 [1, 2] ≠ some ([1, 2], 0) := by
  decide

/-- Claim C2: for a container with size < N and a valid position `p ≤ size`,
`emplace(pos, v)` — hence `insert(pos, v)` — yields the old elements before
`p` unchanged, `v` at index `p`, the old elements from `p` shifted one slot
toward the end in their previous order, size one larger, and returns an
iterator to index `p`; at `p = size` the result is exactly that of
`push_back`. -/
theorem claim_C2_emplace (N : Nat) (dflt : α) (l : List α) (p : Nat) (v : α)
    (hN : l.length < N) (hp : p ≤ l.length) :
    emplace N dflt l p v = some (l.take p ++ v :: l.drop p, p) ∧
    (l.take p ++ v :: l.drop p).length = l.length + 1 ∧
    (p = l.length → l.take p ++ v :: l.drop p = l ++ [v]) := by
  refine ⟨emplace_eq N dflt l p v hN hp, by simp; omega, ?_⟩
  intro hpe
  subst hpe
  simp

theorem claim_C2_emplace_witness :
    emplace 4 (0 : Int) [10, 20, 30] 1 7 = some ([10, 7, 20, 30], 1) := by
  have h := (claim_C2_emplace 4 (0 : Int) [10, 20, 30] 1 7 (by decide) (by decide)).1
  simpa using h

/-- Claim C3: for a non-empty container and a dereferenceable position
`p < size`, `erase(pos)` yields the sequence with the element at `p` removed
and every later element shifted one slot toward the front, size one smaller,
and returns an iterator to index `p`, which equals the new `end` index
exactly when the erased element was the last. -/
theorem claim_C3_erase (l : List α) (p : Nat) (hp : p < l.length) :
    erase l p = some (l.take p ++ l.drop (p + 1), p) ∧
    (l.take p ++ l.drop (p + 1)).length = l.length - 1 ∧
    (p = l.length - 1 → p = (l.take p ++ l.drop (p + 1)).length) := by
  refine ⟨erase_eq l p hp, by simp; omega, ?_⟩
  intro hpe
  simp
  omega

theorem claim_C3_erase_witness :
    erase ([10, 20, 30] : List Int) 1 = some ([10, 30], 1) ∧
    erase ([10, 20, 30] : List Int) 2 = some ([10, 20], 2) := by
  have h1 := (claim_C3_erase ([10, 20, 30] : List Int) 1 (by decide)).1
  have h2 := (claim_C3_erase ([10, 20, 30] : List Int) 2 (by decide)).1
  constructor
  · simpa using h1
  · simpa using h2

/-- Claim C4: for a valid half-open range `[f, lst)` within the container,
`erase(first, last)` removes exactly the elements at indices `[f, lst)`,
keeping the prefix before `f` and the tail from `lst` in order, decreases
size by `lst - f`, returns an iterator to index `f` (where the element that
followed the range now lives), and is a no-op returning `last` when the range
is empty. -/
theorem claim_C4_erase_range (l : List α) (f lst : Nat) (hf : f ≤ lst)
    (hl : lst ≤ l.length) :
    eraseRange l f lst = (l.take f ++ l.drop lst, f) ∧
    (l.take f ++ l.drop lst).length = l.length - (lst - f) ∧
    (f = lst → eraseRange l f lst = (l, lst)) := by
  refine ⟨eraseRange_eq l f lst hf hl, by simp; omega, ?_⟩
  intro hfe
  subst hfe
  unfold eraseRange
  rw [if_pos (by omega)]

theorem claim_C4_erase_range_witness :
    eraseRange ([1, 2, 3, 4] : List Int) 1 3 = ([1, 4], 1) := by
  have h := (claim_C4_erase_range ([1, 2, 3, 4] : List Int) 1 3 (by decide)
    (by decide)).1
  simpa using h

/-- Claim C5: `push_back`/`emplace_back` succeeds exactly when size <
capacity; on success the size grows by exactly one, the last element equals
the pushed value and all previously stored elements are unchanged; on a full
container the capacity-exceeded contract violation is detected before any
mutation, so the container state is unchanged. -/
theorem claim_C5_push_back (N : Nat) (l : List α) (v : α) :
    ((emplace_back N l v).isSome = true ↔ l.length < N) ∧
    (l.length < N →
      emplace_back N l v = some (l ++ [v]) ∧
      (l ++ [v]).length = l.length + 1 ∧
      (l ++ [v]).getLast? = some v ∧
      (l ++ [v]).take l.length = l) ∧
    (¬ l.length < N → emplace_back N l v = none) := by
  unfold emplace_back
  by_cases hlt : l.length < N
  · rw [if_pos hlt]
    exact ⟨by simp [hlt], fun _ => ⟨rfl, by simp, List.getLast?_concat l, by simp⟩,
      fun hc => absurd hlt hc⟩
  · rw [if_neg hlt]
    exact ⟨by simp [hlt], fun hc => absurd hc hlt, fun _ => rfl⟩

theorem claim_C5_push_back_witness :
    emplace_back 3 ([1, 2] : List Int) 7 = some [1, 2, 7] ∧
    emplace_back 2 ([1, 2] : List Int) 7 = none := by
  constructor
  · have h := ((claim_C5_push_back 3 ([1, 2] : List Int) 7).2.1 (by decide)).1
    simpa using h
  · exact (claim_C5_push_back 2 ([1, 2] : List Int) 7).2.2 (by decide)

/-- Claim C6: from any starting state reachable by a constructor (any
sequence of at most N elements) and along any sequence of public operations
executed with their preconditions satisfied, the invariant
size ≤ capacity holds, and `capacity()` is the constant N of the type. -/
theorem claim_C6_size_invariant (N : Nat) (dflt : α) (ops : List (Op α))
    (l l2 : List α) (h0 : l.length ≤ capacity N l)
    (h : run N dflt ops l = some l2) :
    l2.length ≤ capacity N l2 ∧ capacity N l2 = N :=
  ⟨run_some_length N dflt ops l l2 h h0, rfl⟩

theorem claim_C6_size_invariant_witness :
    ([2, 7, 7] : List Int).length ≤ capacity 3 ([2, 7, 7] : List Int) ∧
    capacity 3 ([2, 7, 7] : List Int) = 3 :=
  claim_C6_size_invariant 3 0
    [Op.pushBackOp 1, Op.pushBackOp 2, Op.eraseOp 0, Op.insertCountOp 1 2 7]
    [] [2, 7, 7] (by decide) (by decide)

/-- Claim C7: for a container with room and any valid position `p`,
`insert(pos, v)` followed by `erase` at the returned iterator restores the
original element sequence and size. -/
theorem claim_C7_round_trip (N : Nat) (dflt : α) (l : List α) (p : Nat)
    (v : α) (hN : l.length < N) (hp : p ≤ l.length) :
    ∃ l1 : List α, emplace N dflt l p v = some (l1, p) ∧
      erase l1 p = some (l, p) := by
  refine ⟨l.take p ++ v :: l.drop p, emplace_eq N dflt l p v hN hp, ?_⟩
  have hp1 : p < (l.take p ++ v :: l.drop p).length := by simp; omega
  rw [erase_eq _ p hp1, take_len_left l p hp]
  have hdrop : (l.take p ++ v :: l.drop p).drop (p + 1) = l.drop p := by
    rw [show l.take p ++ v :: l.drop p = (l.take p ++ [v]) ++ l.drop p by simp,
      List.drop_left' (by simp [Nat.min_eq_left hp])]
  rw [hdrop, List.take_append_drop]

theorem claim_C7_round_trip_witness :
    ∃ l1 : List Int, emplace 4 (0 : Int) [10, 20, 30] 1 7 = some (l1, 1) ∧
      erase l1 1 = some ([10, 20, 30], 1) :=
  claim_C7_round_trip 4 (0 : Int) [10, 20, 30] 1 7 (by decide) (by decide)

/-- Claim C8: move construction transfers every element, in index order, to
the new container and leaves the source with size 0. -/
theorem claim_C8_move_construct (N : Nat) (src : List α)
    (h : src.length ≤ N) :
    moveConstruct N src = some (src, []) := by
  unfold moveConstruct
  rw [clone_eq N src [] (by simpa using h)]
  simp

theorem claim_C8_move_construct_witness :
    moveConstruct 3 ([1, 2, 3] : List Int) = some ([1, 2, 3], []) :=
  claim_C8_move_construct 3 ([1, 2, 3] : List Int) (by decide)

/-- Claim C9: copy- or move-assigning a container to itself takes the guarded
branch (`&rhs == this`) and is a no-op: the size and the element sequence are
unchanged, and in particular self-move-assignment does not clear the
elements. -/
theorem claim_C9_self_assign (N : Nat) (v : List α) :
    move_assign N true v v = some (v, v) ∧
    copy_assign N true v v = some (v, v) :=
  ⟨rfl, rfl⟩

/-- Claim C10: iterator ordering operators compare only the positional
indices and ignore which storage the iterators reference, while equality also
requires the same storage; hence two iterators into different containers at
the same index are not equal, yet each is `<=` and `>=` the other and neither
is `<` or `>` the other. -/
theorem claim_C10_iter_ordering (s1 s2 i : Nat) (h : s1 ≠ s2) :
    iterEq ⟨s1, i⟩ ⟨s2, i⟩ = false ∧
    iterLe ⟨s1, i⟩ ⟨s2, i⟩ = true ∧
    iterLe ⟨s2, i⟩ ⟨s1, i⟩ = true ∧
    iterGe ⟨s1, i⟩ ⟨s2, i⟩ = true ∧
    iterGe ⟨s2, i⟩ ⟨s1, i⟩ = true ∧
    iterLt ⟨s1, i⟩ ⟨s2, i⟩ = false ∧
    iterGt ⟨s1, i⟩ ⟨s2, i⟩ = false := by
  simp [iterEq, iterLe, iterGe, iterLt, iterGt, h]

theorem claim_C10_iter_ordering_witness :
    iterEq ⟨0, 5⟩ ⟨1, 5⟩ = false ∧
    iterLe ⟨0, 5⟩ ⟨1, 5⟩ = true ∧
    iterLe ⟨1, 5⟩ ⟨0, 5⟩ = true ∧
    iterGe ⟨0, 5⟩ ⟨1, 5⟩ = true ∧
    iterGe ⟨1, 5⟩ ⟨0, 5⟩ = true ∧
    iterLt ⟨0, 5⟩ ⟨1, 5⟩ = false ∧
    iterGt ⟨0, 5⟩ ⟨1, 5⟩ = false :=
  claim_C10_iter_ordering 0 1 5 (by decide)

end Kt
